import Mathlib

/-!
Verification of the open-project launcher core against its specification.

The development shallowly embeds the three source files:
  * `src/entry.rs`   — the `Entry` model, `Display` rendering, JSON
    (de)serialization shape, and `generate_expanded_entries` (glob
    expansion with global first-wins deduplication by resolved path);
  * `src/session.rs` — the winnow parser `parse_zellij_ls` for the
    textual session listing;
  * `src/main.rs`    — the inline session-resolution decision logic.

Filesystem globbing is modelled by an explicit oracle (`GlobFs`): the
deduplication / error-propagation logic under verification is independent
of which concrete paths a pattern resolves to.
-/

set_option maxRecDepth 4000

/-! ## Paths and the entry model (`src/entry.rs`) -/

/-- A Rust `PathBuf`: either valid UTF-8 text (the only case the program
can expand, `PathBuf::to_str` returns `Some`) or an opaque non-UTF-8
OS string (`to_str` returns `None`). -/
inductive PathBuf
  | utf8 (s : String)
  | nonUtf8 (id : Nat)
deriving DecidableEq, Repr

/-- `PathBuf::to_str`: `Some` exactly for UTF-8 representable paths. -/
def PathBuf.toStr : PathBuf → Option String
  | .utf8 s => some s
  | .nonUtf8 _ => none

/-- The stored project record (`enum Entry` in `src/entry.rs`):
a bare path, or a path together with a layout name. -/
inductive Entry
  | JustPath (path : PathBuf)
  | PathWithlayout (path : PathBuf) (layout : String)
deriving DecidableEq, Repr

/-- `Entry::get_path`: the path of either variant. -/
def Entry.get_path : Entry → PathBuf
  | .JustPath p => p
  | .PathWithlayout p _ => p

/-- `Entry::with_path`: same variant, path replaced, layout (if any)
kept unchanged. -/
def Entry.with_path : Entry → PathBuf → Entry
  | .JustPath _, p => .JustPath p
  | .PathWithlayout _ l, p => .PathWithlayout p l

/-- The layout carried by an entry, if any. -/
def Entry.layoutOf : Entry → Option String
  | .JustPath _ => none
  | .PathWithlayout _ l => some l

/-! ## Glob expansion (`generate_expanded_entries`, `src/entry.rs`) -/

/-- Filesystem/glob oracle standing for `glob::glob`.  For a pattern
string it yields either a pattern-syntax error (`glob::glob` returning
`Err(PatternError)`) or the lazily produced matches, each of which is
either a concrete path or a per-match enumeration error
(`GlobError`, skipped by `filter_map(Result::ok)` in the source). -/
structure GlobFs where
  glob : String → Except String (List (Except String PathBuf))

/-- Expansion error, as produced by `generate_expanded_entries`:
either the UTF-8 encoding error (naming the offending path) or a glob
pattern-syntax error. -/
inductive ExpandError
  | encoding (path : PathBuf)
  | pattern (msg : String)
deriving DecidableEq, Repr

/-- Matches surviving `filter_map(Result::ok)`. -/
def survivors (items : List (Except String PathBuf)) : List PathBuf :=
  items.filterMap fun it => match it with | .ok p => some p | .error _ => none

/-- The inner loop of `generate_expanded_entries`: for each match, if the
path was not seen before, record it as seen and append
`entry.with_path(path)` to the result. -/
def expandMatches (e : Entry) : List PathBuf → List PathBuf → List Entry →
    List PathBuf × List Entry
  | [], seen, res => (seen, res)
  | p :: ps, seen, res =>
    if p ∈ seen then expandMatches e ps seen res
    else expandMatches e ps (p :: seen) (res ++ [e.with_path p])

/-- The outer loop of `generate_expanded_entries`: per entry, require the
path to be UTF-8 (else the encoding error naming it), run the glob (a
pattern error aborts), then process the surviving matches. -/
def generateGo (g : GlobFs) : List Entry → List PathBuf → List Entry →
    Except ExpandError (List Entry)
  | [], _, res => .ok res
  | e :: es, seen, res =>
    match e.get_path.toStr with
    | none => .error (.encoding e.get_path)
    | some str =>
      match g.glob str with
      | .error msg => .error (.pattern msg)
      | .ok items =>
        let sr := expandMatches e (survivors items) seen res
        generateGo g es sr.1 sr.2

/-- `generate_expanded_entries` (`src/entry.rs`, lines 42-60). -/
def generate_expanded_entries (g : GlobFs) (entries : List Entry) :
    Except ExpandError (List Entry) :=
  generateGo g entries [] []

/-- The surviving matches an entry contributes (empty when its expansion
fails; under a successful run every entry's expansion succeeded). -/
def matchesOf (g : GlobFs) (e : Entry) : List PathBuf :=
  match e.get_path.toStr with
  | none => []
  | some str =>
    match g.glob str with
    | .error _ => []
    | .ok items => survivors items

/-- Whether the expansion of a single entry fails fatally (non-UTF-8 path
or glob pattern error). -/
def entryFails (g : GlobFs) (e : Entry) : Bool :=
  match e.get_path.toStr with
  | none => true
  | some str => match g.glob str with | .error _ => true | .ok _ => false

/-- All (source entry, surviving match) pairs in stored order. -/
def allMatches (g : GlobFs) (entries : List Entry) : List (Entry × PathBuf) :=
  entries.flatMap fun e => (matchesOf g e).map fun p => (e, p)

/-- Reference first-wins deduplication by concrete path: keep a pair iff
its path was not seen before, in order. -/
def dedupFirst : List (Entry × PathBuf) → List PathBuf → List (Entry × PathBuf)
  | [], _ => []
  | (e, p) :: rest, seen =>
    if p ∈ seen then dedupFirst rest seen
    else (e, p) :: dedupFirst rest (p :: seen)

/-! ## The session listing parser (`parse_zellij_ls`, `src/session.rs`)

The winnow parser is embedded as functions
`List Char → Option (result × List Char)`: `some (v, rest)` is a parse
returning `v` with `rest` unconsumed, `none` is a (backtracking) parse
error.  `alt` restores the input on failure, matching winnow. -/

/-- A winnow parser over `&str` input. -/
abbrev Parse (α : Type) := List Char → Option (α × List Char)

/-- ASCII alphanumeric, as winnow's `AsChar::is_alphanum`. -/
def isAlnumA (c : Char) : Bool :=
  ('0' ≤ c && c ≤ '9') || ('a' ≤ c && c ≤ 'z') || ('A' ≤ c && c ≤ 'Z')

/-- The characters of winnow's `multispace1`. -/
def isMultispace (c : Char) : Bool :=
  c = ' ' || c = '\t' || c = '\r' || c = '\n'

/-- The characters of winnow's `space0`. -/
def isSpaceTab (c : Char) : Bool := c = ' ' || c = '\t'

/-- The session-name charset: alphanumeric, `-` or `_`. -/
def isNameChar (c : Char) : Bool := isAlnumA c || c = '-' || c = '_'

/-- The characters accepted inside the bracketed dimensions payload. -/
def isDimChar (c : Char) : Bool := isAlnumA c || isMultispace c

/-- A single-character parser (winnow's `char` literal, e.g. `' '`). -/
def pch (c : Char) : Parse Char := fun s =>
  match s with
  | d :: rest => if d = c then some (c, rest) else none
  | [] => none

/-- Match a literal exactly, returning the remainder. -/
def dropExact : List Char → List Char → Option (List Char)
  | [], s => some s
  | c :: cs, d :: ds => if d = c then dropExact cs ds else none
  | _ :: _, [] => none

/-- winnow's `literal`. -/
def plit (l : List Char) : Parse (List Char) := fun s =>
  (dropExact l s).map fun r => (l, r)

/-- winnow's `alphanumeric1`: one or more ASCII alphanumerics, greedy. -/
def alphanumeric1 : Parse (List Char) := fun s =>
  match s.takeWhile isAlnumA with
  | [] => none
  | t => some (t, s.dropWhile isAlnumA)

/-- winnow's `multispace1`: one or more of `' '`, `'\t'`, `'\r'`, `'\n'`. -/
def multispace1 : Parse (List Char) := fun s =>
  match s.takeWhile isMultispace with
  | [] => none
  | t => some (t, s.dropWhile isMultispace)

/-- winnow's `space0`: zero or more of `' '`, `'\t'`. -/
def space0 : Parse (List Char) := fun s =>
  some (s.takeWhile isSpaceTab, s.dropWhile isSpaceTab)

/-- winnow's `line_ending`: `"\n"` or `"\r\n"`. -/
def line_ending : Parse (List Char) := fun s =>
  match s with
  | '\n' :: r => some (['\n'], r)
  | '\r' :: '\n' :: r => some (['\r', '\n'], r)
  | _ => none

/-- winnow's `alt` of two branches: the second runs on the original input
when the first fails. -/
def altP {α : Type} (p q : Parse α) : Parse α := fun s =>
  match p s with
  | some r => some r
  | none => q s

/-- winnow's `opt`. -/
def optP {α : Type} (p : Parse α) : Parse (Option α) := fun s =>
  match p s with
  | some (a, r) => some (some a, r)
  | none => some (none, s)

/-- winnow's `repeat(0.., p)` loop, fuelled: stops when `p` fails, errors
if `p` succeeds without consuming (winnow's infinite-loop guard).  The
fuel is an upper bound on the number of iterations; since every
iteration consumes at least one character, `length + 1` is always
enough. -/
def repeatGo {α : Type} (p : Parse α) : Nat → List Char → Option (List α × List Char)
  | 0, s => some ([], s)
  | fuel + 1, s =>
    match p s with
    | none => some ([], s)
    | some (a, s') =>
      if s'.length < s.length then
        match repeatGo p fuel s' with
        | none => none
        | some (as, r) => some (a :: as, r)
      else none

/-- winnow's `repeat(.., p)`. -/
def repeat0 {α : Type} (p : Parse α) : Parse (List α) := fun s =>
  repeatGo p (s.length + 1) s

/-- winnow's `repeat(1.., p)`: like `repeat(0..)` but an immediate
failure of `p` is an error. -/
def repeat1 {α : Type} (p : Parse α) : Parse (List α) := fun s =>
  match repeatGo p (s.length + 1) s with
  | some ([], _) => none
  | r => r

/-- winnow's `delimited(l, m, r)`: returns the middle value. -/
def delimitedP {α β γ : Type} (l : Parse α) (m : Parse β) (r : Parse γ) :
    Parse β := fun s =>
  match l s with
  | none => none
  | some (_, s1) =>
    match m s1 with
    | none => none
    | some (b, s2) =>
      match r s2 with
      | none => none
      | some (_, s3) => some (b, s3)

/-- winnow's `separated(.., elem, sep)` loop after the first element:
checkpoint, parse `sep` then `elem`; on failure of either, restore the
checkpoint and finish. -/
def separatedGo {α β : Type} (elem : Parse α) (sep : Parse β) :
    Nat → List Char → Option (List α × List Char)
  | 0, s => some ([], s)
  | fuel + 1, s =>
    match sep s with
    | none => some ([], s)
    | some (_, s1) =>
      match elem s1 with
      | none => some ([], s)
      | some (a, s2) =>
        if s2.length < s.length then
          match separatedGo elem sep fuel s2 with
          | none => none
          | some (as, r) => some (a :: as, r)
        else none

/-- winnow's `separated(.., elem, sep)` (zero or more). -/
def separated0 {α β : Type} (elem : Parse α) (sep : Parse β) :
    Parse (List α) := fun s =>
  match elem s with
  | none => some ([], s)
  | some (a, s1) =>
    match separatedGo elem sep (s1.length + 1) s1 with
    | none => none
    | some (as, r) => some (a :: as, r)

/-- A parsed session record (`struct ZellijSession`). -/
structure ZellijSession where
  name : String
  exited : Bool
deriving DecidableEq, Repr

/-- The parsed status word (`enum Status`). -/
inductive Status
  | Exited
  | Else
deriving DecidableEq, Repr

/-- `"EXITED - attach to resurrect"`. -/
def exitedLit : List Char := "EXITED - attach to resurrect".toList

/-- `"current"`. -/
def currentLit : List Char := "current".toList

/-- The inner `session_name` parser:
`repeat(1.., alt((alphanumeric1, "-", "_"))).map(join)`. -/
def session_name : Parse String := fun s =>
  match repeat1 (altP alphanumeric1 (altP (plit ['-']) (plit ['_']))) s with
  | none => none
  | some (chunks, r) => some (chunks.flatten.asString, r)

/-- The inner `status` parser:
`alt(("EXITED - attach to resurrect" → Exited, "current" → Else, empty → Else))`. -/
def statusP : Parse Status :=
  altP (fun s => (plit exitedLit s).map fun pr => (Status.Exited, pr.2))
    (altP (fun s => (plit currentLit s).map fun pr => (Status.Else, pr.2))
      (fun s => some (Status.Else, s)))

/-- The bracketed dimensions:
`delimited('[', repeat(.., alt((alphanumeric1, multispace1))), ']')`. -/
def dimsP : Parse (List Char) := fun s =>
  match delimitedP (pch '[') (repeat0 (altP alphanumeric1 multispace1)) (pch ']') s with
  | none => none
  | some (chunks, r) => some (chunks.flatten, r)

/-- One session entry:
`(session_name, ' ', dims, space0, opt(delimited('(', status, ')')))`
mapped to a `ZellijSession`. -/
def session_entry : Parse ZellijSession := fun s =>
  match session_name s with
  | none => none
  | some (name, r1) =>
    match pch ' ' r1 with
    | none => none
    | some (_, r2) =>
      match dimsP r2 with
      | none => none
      | some (_, r3) =>
        match space0 r3 with
        | none => none
        | some (_, r4) =>
          match optP (delimitedP (pch '(') statusP (pch ')')) r4 with
          | none => none
          | some (ost, r5) =>
            some ({ name := name,
                    exited := (ost.map fun st => st == Status.Exited).getD false }, r5)

/-- `parse_zellij_ls` (`src/session.rs`, lines 22-68):
`(separated(.., session_entry, line_ending), opt(line_ending)).map(|r| r.0)`. -/
def parse_zellij_ls : Parse (List ZellijSession) := fun s =>
  match separated0 session_entry line_ending s with
  | none => none
  | some (sessions, r) =>
    match optP line_ending r with
    | none => none
    | some (_, r2) => some (sessions, r2)

/-- The call site `parse_zellij_ls.parse(&mut sessions)` in `src/main.rs`:
winnow's `Parser::parse` additionally demands that the whole input be
consumed. -/
def parse_zellij_ls_complete (s : List Char) : Option (List ZellijSession) :=
  match parse_zellij_ls s with
  | some (v, []) => some v
  | _ => none

/-! ## Session resolution (`src/main.rs`, lines 122-147)

The inline decision logic of `main`: find the first parsed session whose
name equals the desired name; absent → create (`-s name` on a fresh
session), present and exited → delete the session then create
(`delete-session` followed by `-s name`), present and alive → attach
(no `-s` argument). -/

/-- The launch decision taken by `main`. -/
inductive LaunchDecision
  | Create (name : String)
  | Attach (name : String)
  | Recreate (name : String)
deriving DecidableEq, Repr

/-- The session-resolution rule of `main`
(`sessions.into_iter().find(|session| session.name == name)` followed by
the `exited` branches). -/
def resolve_session (desired : String) (sessions : List ZellijSession) :
    LaunchDecision :=
  match sessions.find? (fun s => s.name == desired) with
  | none => .Create desired
  | some s => if s.exited then .Recreate desired else .Attach desired

/-! ## Serialization (`#[serde(untagged)]` on `Entry`, `src/entry.rs`)

The JSON value tree is modelled explicitly; `serde_json` serializes a
`PathBuf` as a JSON string (failing on non-UTF-8 paths), a `JustPath`
entry as the bare path value, and a `PathWithlayout` entry as an object
with `path` and `layout` fields in declaration order.  Untagged
deserialization tries the variants in declaration order: a string
becomes `JustPath`, an object with `path` and `layout` string fields
becomes `PathWithlayout`. -/

/-- A JSON value (the fragment these records use). -/
inductive Json
  | str (s : String)
  | obj (fields : List (String × Json))
  | arr (items : List Json)

/-- Serialize one entry, as `serde_json` does for the untagged `Entry`
(`None` when the path is not valid UTF-8, which `serde` rejects). -/
def serializeEntry : Entry → Option Json
  | .JustPath p => p.toStr.map Json.str
  | .PathWithlayout p l =>
    p.toStr.map fun s => Json.obj [("path", Json.str s), ("layout", Json.str l)]

/-- Serialize an ordered entry sequence as a JSON array. -/
def serializeEntries (es : List Entry) : Option Json :=
  (es.mapM serializeEntry).map Json.arr

/-- Untagged deserialization of one entry: first variant (`JustPath`,
i.e. a `PathBuf`, i.e. a JSON string) wins, else an object carrying
`path` and `layout` string fields is the `PathWithlayout` variant. -/
def deserializeEntry (j : Json) : Option Entry :=
  match j with
  | .str s => some (.JustPath (.utf8 s))
  | .obj fields =>
    match fields.lookup "path", fields.lookup "layout" with
    | some (.str p), some (.str l) => some (.PathWithlayout (.utf8 p) l)
    | _, _ => none
  | .arr _ => none

/-- Deserialize a JSON array of entries, in order. -/
def deserializeEntries (j : Json) : Option (List Entry) :=
  match j with
  | .arr items => items.mapM deserializeEntry
  | .str _ => none
  | .obj _ => none

/-! ## Display (`impl Display for Entry`, `src/entry.rs`, lines 29-40)

`write!(f, "'{path:?}'")` renders the path with `Debug` formatting —
the path's text wrapped in double quotes with `Debug` string escaping —
between single quotes, and the `PathWithlayout` variant appends
`" with layout '<layout>'"` with the layout verbatim.  The `Debug`
escaping is modelled for UTF-8 paths: `"`, `\`, `\n`, `\t`, `\r` and
NUL get their named escapes, other control characters (and DEL) the
`\u{..}` escape; remaining characters print as themselves. -/

/-- A single quote. -/
def squo : Char := Char.ofNat 39

/-- Lowercase hex digit. -/
def hexDigit (n : Nat) : Char :=
  if n < 10 then Char.ofNat (48 + n) else Char.ofNat (87 + n)

/-- Minimal lowercase hex rendering (enough for code points below 256,
the only ones escaped numerically here). -/
def hexDigits (n : Nat) : List Char :=
  if n < 16 then [hexDigit n] else [hexDigit (n / 16), hexDigit (n % 16)]

/-- `Debug` escaping of one character of a string. -/
def escChar (c : Char) : List Char :=
  if c = '"' then ['\\', '"']
  else if c = '\\' then ['\\', '\\']
  else if c = '\n' then ['\\', 'n']
  else if c = '\t' then ['\\', 't']
  else if c = '\r' then ['\\', 'r']
  else if c = Char.ofNat 0 then ['\\', '0']
  else if c.toNat < 32 || c.toNat = 127 then
    '\\' :: 'u' :: '{' :: hexDigits c.toNat ++ ['}']
  else [c]

/-- `Debug` escaping of a string's characters. -/
def escSeq (s : List Char) : List Char := s.flatMap escChar

/-- `" with layout "`. -/
def midLit : List Char := " with layout ".toList

/-- The `Display` rendering of an entry (`None` for a non-UTF-8 path,
whose OS-string `Debug` byte rendering is outside this embedding):
`'"<escaped path>"'` and, with a layout, `'"<escaped path>"' with
layout '<layout>'`. -/
def display (e : Entry) : Option (List Char) :=
  match e with
  | .JustPath p =>
    p.toStr.map fun s => squo :: '"' :: escSeq s.toList ++ ['"', squo]
  | .PathWithlayout p l =>
    p.toStr.map fun s =>
      squo :: '"' :: escSeq s.toList ++ '"' :: squo :: midLit ++ squo :: l.toList ++ [squo]

/-! ## Inverses used by the proofs -/

/-- Value of a hex digit character. -/
def unhexDigit (c : Char) : Option Nat :=
  if 48 ≤ c.toNat && c.toNat ≤ 57 then some (c.toNat - 48)
  else if 97 ≤ c.toNat && c.toNat ≤ 102 then some (c.toNat - 87)
  else none

/-- Value of a nonempty hex digit string. -/
def hexVal (ds : List Char) : Option Nat :=
  match ds with
  | [] => none
  | _ =>
    ds.foldl
      (fun acc d =>
        match acc, unhexDigit d with
        | some a, some v => some (16 * a + v)
        | _, _ => none)
      (some 0)

/-- The character encoded by a two-character escape. -/
def unescDigit (d : Char) : Option Char :=
  if d = '"' then some '"'
  else if d = '\\' then some '\\'
  else if d = 'n' then some '\n'
  else if d = 't' then some '\t'
  else if d = 'r' then some '\r'
  else if d = '0' then some (Char.ofNat 0)
  else none

/-- Decode a `Debug`-escaped string up to (and consuming) its closing
unescaped double quote, returning the decoded text and the remainder. -/
def unescGo : Nat → List Char → Option (List Char × List Char)
  | 0, _ => none
  | fuel + 1, s =>
    match s with
    | [] => none
    | c :: rest =>
      if c = '"' then some ([], rest)
      else if c = '\\' then
        match rest with
        | [] => none
        | d :: rest2 =>
          if d = 'u' then
            match rest2 with
            | '{' :: rest3 =>
              match rest3.dropWhile (fun x => !(x = '}')) with
              | '}' :: rest4 =>
                match hexVal (rest3.takeWhile (fun x => !(x = '}'))) with
                | some n =>
                  (unescGo fuel rest4).map fun pr => (Char.ofNat n :: pr.1, pr.2)
                | none => none
              | _ => none
            | _ => none
          else
            match unescDigit d with
            | some ch => (unescGo fuel rest2).map fun pr => (ch :: pr.1, pr.2)
            | none => none
      else (unescGo fuel rest).map fun pr => (c :: pr.1, pr.2)

/-- Invert `display`: recover the path text and the optional layout. -/
def parseDisplay (cs : List Char) : Option (List Char × Option (List Char)) :=
  match cs with
  | c0 :: c1 :: rest =>
    if c0 = squo && c1 = '"' then
      match unescGo (rest.length + 1) rest with
      | some (s, rest2) =>
        match rest2 with
        | c2 :: rest3 =>
          if c2 = squo then
            if rest3 = [] then some (s, none)
            else
              match dropExact midLit rest3 with
              | some (c3 :: rest4) =>
                if c3 = squo && !(rest4 = []) && rest4.getLast? = some squo then
                  some (s, some rest4.dropLast)
                else none
              | _ => none
          else none
        | [] => none
      | none => none
    else none
  | _ => none

/-! ## Rendered listings used to state the parser laws -/

/-- A description of one well-formed listing line: name, bracketed
payload, trailing spaces, and optional status (`some true` = exited,
`some false` = current, `none` = absent). -/
structure RDesc where
  name : List Char
  dims : List Char
  pad : Nat
  status : Option Bool
deriving DecidableEq, Repr

/-- Well-formedness: nonempty name over the name charset, payload over
the accepted payload charset. -/
def RDesc.wf (d : RDesc) : Prop :=
  d.name ≠ [] ∧ (∀ c ∈ d.name, isNameChar c = true) ∧
    (∀ c ∈ d.dims, isDimChar c = true)

/-- The rendered status suffix. -/
def statusText : Option Bool → List Char
  | none => []
  | some false => '(' :: currentLit ++ [')']
  | some true => '(' :: exitedLit ++ [')']

/-- The rendered listing line (without its line ending). -/
def RDesc.render (d : RDesc) : List Char :=
  d.name ++ ' ' :: '[' :: d.dims ++ ']' ::
    (List.replicate d.pad ' ' ++ statusText d.status)

/-- The record such a line parses to. -/
def RDesc.record (d : RDesc) : ZellijSession :=
  ⟨d.name.asString, d.status.getD false⟩

/-- A full listing: the rendered lines, each followed by `"\n"`, followed
by a remainder. -/
def renderAll (ds : List RDesc) (rest : List Char) : List Char :=
  match ds with
  | [] => rest
  | d :: ds' => d.render ++ '\n' :: renderAll ds' rest

/-! ## Concrete oracles for witnesses and counterexamples -/

/-- An oracle on which every pattern yields no matches. -/
def gEmpty : GlobFs := ⟨fun _ => .ok []⟩

/-- An oracle with two overlapping patterns: `/a*` resolves to `/ab` and
`/ac`, and the concrete paths `/ab`, `/ac` each resolve to themselves. -/
def gOverlap : GlobFs :=
  ⟨fun s =>
    if s = "/a*" then .ok [.ok (PathBuf.utf8 "/ab"), .ok (PathBuf.utf8 "/ac")]
    else if s = "/ab" then .ok [.ok (PathBuf.utf8 "/ab")]
    else if s = "/ac" then .ok [.ok (PathBuf.utf8 "/ac")]
    else .ok []⟩

/-- An oracle on which the concrete path `/a` exists (the pattern `/a`
matches exactly itself) and nothing else matches. -/
def gSelf : GlobFs :=
  ⟨fun s => if s = "/a" then .ok [.ok (PathBuf.utf8 "/a")] else .ok []⟩

/-! ## Predicates used to reason about the parser -/

/-- The input is empty or starts with a character outside the class. -/
def headStops (pred : Char → Bool) : List Char → Prop
  | [] => True
  | c :: _ => pred c = false

/-- A chunk parser for the character class `pred`: it fails exactly when
the input does not start with a class character, and otherwise consumes
a nonempty prefix of class characters. -/
def ChunkP (pred : Char → Bool) (p : Parse (List Char)) : Prop :=
  (∀ s, headStops pred s → p s = none) ∧
  (∀ c s, pred c = true →
    ∃ t r, p (c :: s) = some (t, r) ∧ t ≠ [] ∧
      (∀ d ∈ t, pred d = true) ∧ c :: s = t ++ r)

/-! # Theorems -/

/-! ## Session resolution (C2) -/

/-- Claim C2: the session resolver's decision rule — searching the parsed
records for a name equal (exact, case-sensitive) to the desired name
yields `Create` when no record matches, `Attach` when the matching
record is not exited, and `Recreate` (delete first, then create) when
the matching record is exited. -/
theorem claim_C2 (desired : String) (sessions : List ZellijSession) :
    ((∀ s ∈ sessions, s.name ≠ desired) →
      resolve_session desired sessions = .Create desired)
    ∧ (∀ r, sessions.find? (fun s => s.name == desired) = some r →
        (r.exited = false → resolve_session desired sessions = .Attach desired)
        ∧ (r.exited = true → resolve_session desired sessions = .Recreate desired)) := by
  constructor
  · intro h
    unfold resolve_session
    rw [List.find?_eq_none.mpr]
    intro x hx
    simp [h x hx]
  · intro r hr
    unfold resolve_session
    rw [hr]
    constructor <;> intro hex <;> simp [hex]

/-- Witness for C2 at a concrete listing: the desired name matches an
exited record, so the resolver recreates. -/
theorem claim_C2_witness :
    resolve_session "work" [⟨"work", true⟩] = .Recreate "work" :=
  ((claim_C2 "work" [⟨"work", true⟩]).2 ⟨"work", true⟩ rfl).2 rfl

/-! ## Parser scenarios (C3, C10) -/

/-- Claim C3: the five literal parser scenarios of spec section 8: a bare
entry, a `(current)` entry, an `(EXITED - attach to resurrect)` entry,
a two-line listing parsed in input order, and a name containing `!`
rejected as a parse failure. -/
theorem claim_C3 :
    parse_zellij_ls_complete ("work [80x24]\n".toList)
      = some [⟨"work", false⟩]
    ∧ parse_zellij_ls_complete ("work [80x24] (current)\n".toList)
      = some [⟨"work", false⟩]
    ∧ parse_zellij_ls_complete ("work [80x24] (EXITED - attach to resurrect)\n".toList)
      = some [⟨"work", true⟩]
    ∧ parse_zellij_ls_complete ("a [1x1]\nb [2x2] (current)\n".toList)
      = some [⟨"a", false⟩, ⟨"b", false⟩]
    ∧ parse_zellij_ls_complete ("bad!name [1x1]\n".toList) = none :=
  ⟨rfl, rfl, rfl, rfl, rfl⟩

/-- Claim C10: the bracketed payload may contain line endings, so one
session record can span several physical input lines —
`"work [80\n24]\n"` parses to the single record `work`, not exited. -/
theorem claim_C10 :
    parse_zellij_ls_complete ("work [80\n24]\n".toList)
      = some [⟨"work", false⟩] := rfl

/-! ## Serialization round-trip (C4) -/

/-- One entry's serialization deserializes back to the same entry. -/
theorem deserialize_serializeEntry (e : Entry) (j : Json)
    (h : serializeEntry e = some j) : deserializeEntry j = some e := by
  cases e with
  | JustPath p =>
    cases p with
    | utf8 s =>
      simp [serializeEntry, PathBuf.toStr] at h
      subst h
      rfl
    | nonUtf8 id => simp [serializeEntry, PathBuf.toStr] at h
  | PathWithlayout p l =>
    cases p with
    | utf8 s =>
      simp [serializeEntry, PathBuf.toStr] at h
      subst h
      simp [deserializeEntry, List.lookup]
    | nonUtf8 id => simp [serializeEntry, PathBuf.toStr] at h

/-- Elementwise round-trip for entry sequences, in order. -/
theorem deserialize_serializeEntries (es : List Entry) :
    ∀ js : List Json, es.mapM serializeEntry = some js →
      js.mapM deserializeEntry = some es := by
  induction es with
  | nil =>
    intro js h
    rw [List.mapM_nil] at h
    cases h
    rfl
  | cons e es ih =>
    intro js h
    rw [List.mapM_cons] at h
    rcases hj : serializeEntry e with _ | j <;> rw [hj] at h
    · simp at h
    rcases hjs : es.mapM serializeEntry with _ | js' <;> rw [hjs] at h
    · simp at h
    simp at h
    subst h
    rw [List.mapM_cons, deserialize_serializeEntry e j hj, ih js' hjs]
    rfl

/-- Claim C4: serialization round-trip — serializing an ordered entry
sequence and deserializing the result yields an equal sequence in the
same order, and the untagged encoding keeps the variant distinction: a
bare `JustPath` serializes as a plain path-shaped value (a JSON string)
and deserializes back to `JustPath`, while `PathWithlayout` serializes
as an object carrying the `layout` field and deserializes back to
`PathWithlayout`. -/
theorem claim_C4 (es : List Entry) (j : Json)
    (h : serializeEntries es = some j) :
    deserializeEntries j = some es
    ∧ (∀ s, serializeEntry (.JustPath (.utf8 s)) = some (.str s)
          ∧ deserializeEntry (.str s) = some (.JustPath (.utf8 s)))
    ∧ (∀ s l, serializeEntry (.PathWithlayout (.utf8 s) l)
            = some (.obj [("path", .str s), ("layout", .str l)])
          ∧ deserializeEntry (.obj [("path", .str s), ("layout", .str l)])
            = some (.PathWithlayout (.utf8 s) l)) := by
  refine ⟨?_, ?_, ?_⟩
  · unfold serializeEntries at h
    rcases hjs : es.mapM serializeEntry with _ | js <;> rw [hjs] at h
    · simp at h
    simp at h
    subst h
    unfold deserializeEntries
    exact deserialize_serializeEntries es js hjs
  · intro s
    exact ⟨rfl, rfl⟩
  · intro s l
    refine ⟨rfl, ?_⟩
    simp [deserializeEntry, List.lookup]
/-- Witness for C4 at a concrete two-entry sequence, one of each
variant. -/
theorem claim_C4_witness :
    deserializeEntries
        (Json.arr [Json.str "/a",
          Json.obj [("path", Json.str "/b"), ("layout", Json.str "l")]])
      = some [Entry.JustPath (PathBuf.utf8 "/a"),
          Entry.PathWithlayout (PathBuf.utf8 "/b") "l"] :=
  (claim_C4
    [Entry.JustPath (PathBuf.utf8 "/a"),
      Entry.PathWithlayout (PathBuf.utf8 "/b") "l"]
    (Json.arr [Json.str "/a",
      Json.obj [("path", Json.str "/b"), ("layout", Json.str "l")]])
    rfl).1

/-! ## Glob expansion: dedup laws (C1) -/

/-- `with_path` puts the given path in place. -/
theorem get_path_with_path (e : Entry) (p : PathBuf) :
    (e.with_path p).get_path = p := by
  cases e <;> rfl

/-- `with_path` keeps the layout unchanged. -/
theorem layoutOf_with_path (e : Entry) (p : PathBuf) :
    (e.with_path p).layoutOf = e.layoutOf := by
  cases e <;> rfl

/-- The result accumulator of the match loop grows by exactly the
first-wins-deduplicated matches, each wrapped by `with_path`. -/
theorem expandMatches_snd (e : Entry) (ms : List PathBuf) :
    ∀ seen res, (expandMatches e ms seen res).2
      = res ++ (dedupFirst (ms.map fun p => (e, p)) seen).map
          fun ep => ep.1.with_path ep.2 := by
  induction ms with
  | nil => intro seen res; simp [expandMatches, dedupFirst]
  | cons p ps ih =>
    intro seen res
    by_cases hp : p ∈ seen
    · rw [expandMatches, if_pos hp, ih, List.map_cons, dedupFirst, if_pos hp]
    · rw [expandMatches, if_neg hp, ih, List.map_cons, dedupFirst, if_neg hp,
        List.map_cons, List.append_assoc, List.singleton_append]

/-- The seen set after the match loop holds exactly the old seen set plus
this entry's matches. -/
theorem expandMatches_fst_mem (e : Entry) (ms : List PathBuf) :
    ∀ seen res q, q ∈ (expandMatches e ms seen res).1 ↔ q ∈ seen ∨ q ∈ ms := by
  induction ms with
  | nil => intro seen res q; simp [expandMatches]
  | cons p ps ih =>
    intro seen res q
    by_cases hp : p ∈ seen
    · rw [expandMatches, if_pos hp, ih]
      simp only [List.mem_cons]
      constructor
      · rintro (h | h)
        · exact Or.inl h
        · exact Or.inr (Or.inr h)
      · rintro (h | rfl | h)
        · exact Or.inl h
        · exact Or.inl hp
        · exact Or.inr h
    · rw [expandMatches, if_neg hp, ih]
      simp only [List.mem_cons]
      tauto

/-- `dedupFirst` only depends on the membership of the seen set. -/
theorem dedupFirst_congr (l : List (Entry × PathBuf)) :
    ∀ s1 s2, (∀ q : PathBuf, q ∈ s1 ↔ q ∈ s2) →
      dedupFirst l s1 = dedupFirst l s2 := by
  induction l with
  | nil => intro s1 s2 _; rfl
  | cons ep rest ih =>
    intro s1 s2 h
    obtain ⟨e, p⟩ := ep
    by_cases hp : p ∈ s1
    · rw [dedupFirst, if_pos hp, dedupFirst, if_pos ((h p).mp hp), ih _ _ h]
    · rw [dedupFirst, if_neg hp, dedupFirst, if_neg (fun hc => hp ((h p).mpr hc)),
        ih (p :: s1) (p :: s2)
          (fun q => by rw [List.mem_cons, List.mem_cons, h q])]

/-- Splitting `dedupFirst` over an append: the second part runs with the
first part's paths added to the seen set. -/
theorem dedupFirst_append (l1 l2 : List (Entry × PathBuf)) :
    ∀ s, dedupFirst (l1 ++ l2) s
      = dedupFirst l1 s ++ dedupFirst l2 (l1.map Prod.snd ++ s) := by
  induction l1 with
  | nil => intro s; simp [dedupFirst]
  | cons ep t ih =>
    intro t0
    obtain ⟨e, p⟩ := ep
    by_cases hp : p ∈ t0
    · rw [List.cons_append, dedupFirst, if_pos hp, dedupFirst, if_pos hp, ih t0]
      congr 1
      refine dedupFirst_congr l2 _ _ fun q => ?_
      simp only [List.map_cons, List.cons_append, List.mem_cons, List.mem_append]
      constructor
      · exact fun h => Or.inr h
      · rintro (rfl | h)
        · exact Or.inr hp
        · exact h
    · rw [List.cons_append, dedupFirst, if_neg hp, dedupFirst, if_neg hp,
        ih (p :: t0), List.cons_append]
      congr 2
      refine dedupFirst_congr l2 _ _ fun q => ?_
      simp only [List.map_cons, List.cons_append, List.mem_cons, List.mem_append]
      tauto

/-- Each kept pair comes from the input and its path was unseen. -/
theorem mem_dedupFirst (l : List (Entry × PathBuf)) :
    ∀ s ep, ep ∈ dedupFirst l s → ep ∈ l ∧ ep.2 ∉ s := by
  induction l with
  | nil => intro s ep h; simp [dedupFirst] at h
  | cons x t ih =>
    intro s ep h
    obtain ⟨e, p⟩ := x
    by_cases hp : p ∈ s
    · rw [dedupFirst, if_pos hp] at h
      obtain ⟨h1, h2⟩ := ih s ep h
      exact ⟨List.mem_cons_of_mem _ h1, h2⟩
    · rw [dedupFirst, if_neg hp] at h
      rcases List.mem_cons.mp h with rfl | h
      · exact ⟨List.mem_cons_self _ _, hp⟩
      · obtain ⟨h1, h2⟩ := ih (p :: s) ep h
        exact ⟨List.mem_cons_of_mem _ h1,
          fun hc => h2 (List.mem_cons_of_mem _ hc)⟩

/-- A path survives `dedupFirst` iff it occurs in the input and was not
already seen. -/
theorem mem_snd_dedupFirst (l : List (Entry × PathBuf)) :
    ∀ s q, q ∈ (dedupFirst l s).map Prod.snd ↔
      q ∈ l.map Prod.snd ∧ q ∉ s := by
  induction l with
  | nil => intro s q; simp [dedupFirst]
  | cons x t ih =>
    intro s q
    obtain ⟨e, p⟩ := x
    by_cases hp : p ∈ s
    · rw [dedupFirst, if_pos hp, ih]
      simp only [List.map_cons, List.mem_cons]
      constructor
      · rintro ⟨h1, h2⟩
        exact ⟨Or.inr h1, h2⟩
      · rintro ⟨h1 | h1, h2⟩
        · exact absurd (h1 ▸ hp) h2
        · exact ⟨h1, h2⟩
    · rw [dedupFirst, if_neg hp]
      simp only [List.map_cons, List.mem_cons, ih]
      constructor
      · rintro (rfl | ⟨h1, h2⟩)
        · exact ⟨Or.inl rfl, hp⟩
        · exact ⟨Or.inr h1, fun hc => h2 (Or.inr hc)⟩
      · rintro ⟨h1 | h1, h2⟩
        · exact Or.inl h1
        · by_cases hqp : q = p
          · exact Or.inl hqp
          · exact Or.inr ⟨h1, fun hc => hc.elim hqp h2⟩

/-- The kept paths are pairwise distinct. -/
theorem nodup_snd_dedupFirst (l : List (Entry × PathBuf)) :
    ∀ s, ((dedupFirst l s).map Prod.snd).Nodup := by
  induction l with
  | nil => intro s; simp [dedupFirst]
  | cons x t ih =>
    intro s
    obtain ⟨e, p⟩ := x
    by_cases hp : p ∈ s
    · rw [dedupFirst, if_pos hp]
      exact ih s
    · rw [dedupFirst, if_neg hp]
      simp only [List.map_cons, List.nodup_cons]
      exact ⟨fun hc => ((mem_snd_dedupFirst t (p :: s) p).mp hc).2
          (List.mem_cons_self p s),
        ih (p :: s)⟩

/-- A successful run appends to the accumulated result exactly the
first-wins deduplication of all surviving matches in stored order,
each wrapped by `with_path`. -/
theorem generateGo_ok (g : GlobFs) (es : List Entry) :
    ∀ seen res out, generateGo g es seen res = .ok out →
      out = res ++ (dedupFirst (allMatches g es) seen).map
        fun ep => ep.1.with_path ep.2 := by
  induction es with
  | nil =>
    intro seen res out h
    simp only [generateGo, Except.ok.injEq] at h
    subst h
    simp [allMatches, dedupFirst]
  | cons e es ih =>
    intro seen res out h
    rw [generateGo] at h
    rcases hts : e.get_path.toStr with _ | str
    · simp [hts] at h
    simp only [hts] at h
    rcases hg : g.glob str with msg | items
    · simp [hg] at h
    simp only [hg] at h
    have hms : matchesOf g e = survivors items := by
      simp only [matchesOf, hts, hg]
    have h2 := ih _ _ _ h
    rw [expandMatches_snd] at h2
    have e1 : allMatches g (e :: es)
        = (survivors items).map (fun p => (e, p)) ++ allMatches g es := by
      rw [allMatches, List.flatMap_cons, hms]
      rfl
    have e2 : ((survivors items).map (fun p => (e, p))).map Prod.snd
        = survivors items := by
      simp
    have e3 : dedupFirst (allMatches g es)
          ((expandMatches e (survivors items) seen res).1)
        = dedupFirst (allMatches g es) (survivors items ++ seen) := by
      refine dedupFirst_congr _ _ _ fun q => ?_
      rw [expandMatches_fst_mem, List.mem_append]
      tauto
    rw [h2, e3, e1, dedupFirst_append, e2, List.map_append, List.append_assoc]

/-- Every pair kept by the first-wins deduplication of a listing's
matches is attributed to the first entry (in stored order) whose
expansion produced that path. -/
theorem dedupFirst_attribution (g : GlobFs) (entries : List Entry) :
    ∀ (seen : List PathBuf) (e : Entry) (p : PathBuf),
      (e, p) ∈ dedupFirst (allMatches g entries) seen →
      p ∉ seen ∧ ∃ i, ∃ hi : i < entries.length,
        e = entries.get ⟨i, hi⟩ ∧ p ∈ matchesOf g e ∧
        ∀ j, ∀ hj : j < entries.length, j < i →
          p ∉ matchesOf g (entries.get ⟨j, hj⟩) := by
  induction entries with
  | nil => intro seen e p h; simp [allMatches, dedupFirst] at h
  | cons e0 rest ih =>
    intro seen e p h
    have e1 : allMatches g (e0 :: rest)
        = (matchesOf g e0).map (fun q => (e0, q)) ++ allMatches g rest := by
      rw [allMatches, List.flatMap_cons]
      rfl
    rw [e1, dedupFirst_append] at h
    have e2 : ((matchesOf g e0).map (fun q => (e0, q))).map Prod.snd
        = matchesOf g e0 := by
      simp
    rw [e2] at h
    rcases List.mem_append.mp h with h | h
    · obtain ⟨hmem, hns⟩ := mem_dedupFirst _ _ _ h
      obtain ⟨q, hq, heq⟩ := List.mem_map.mp hmem
      injection heq with hE hQ
      subst hE
      subst hQ
      refine ⟨hns, 0, by simp, rfl, hq, ?_⟩
      intro j hj hlt
      omega
    · obtain ⟨hns, i, hi, hE, hp, hall⟩ := ih (matchesOf g e0 ++ seen) e p h
      have hns0 : p ∉ matchesOf g e0 :=
        fun hc => hns (List.mem_append.mpr (Or.inl hc))
      have hnseen : p ∉ seen :=
        fun hc => hns (List.mem_append.mpr (Or.inr hc))
      refine ⟨hnseen, i + 1, by simpa using Nat.succ_lt_succ hi, ?_, hp, ?_⟩
      · rw [hE]
        rfl
      · intro j hj hlt
        cases j with
        | zero => simpa using hns0
        | succ k =>
          have hk : k < rest.length := by
            simp only [List.length_cons] at hj
            omega
          simpa using hall k hk (by omega)

/-- Claim C1: glob expansion deduplicates globally by resolved concrete
path with first-wins attribution — a successful run equals the
first-wins deduplication of all surviving matches in stored order
(each built by `with_path`, which copies the layout unchanged), every
concrete path occurs at most once, exactly the produced paths occur,
and every output entry is built from the first source entry in stored
order whose expansion produced its path (later producers of the same
path are dropped). -/
theorem claim_C1 (g : GlobFs) (entries res : List Entry)
    (h : generate_expanded_entries g entries = .ok res) :
    res = (dedupFirst (allMatches g entries) []).map
        (fun ep => ep.1.with_path ep.2)
    ∧ (res.map Entry.get_path).Nodup
    ∧ (∀ p, p ∈ res.map Entry.get_path ↔ ∃ e ∈ entries, p ∈ matchesOf g e)
    ∧ ∀ x ∈ res, ∃ i, ∃ hi : i < entries.length,
        x = (entries.get ⟨i, hi⟩).with_path x.get_path
        ∧ x.get_path ∈ matchesOf g (entries.get ⟨i, hi⟩)
        ∧ ∀ j, ∀ hj : j < entries.length, j < i →
            x.get_path ∉ matchesOf g (entries.get ⟨j, hj⟩) := by
  have h0 := generateGo_ok g entries [] [] res h
  simp only [List.nil_append] at h0
  have hmap : res.map Entry.get_path
      = (dedupFirst (allMatches g entries) []).map Prod.snd := by
    rw [h0, List.map_map]
    exact List.map_congr_left fun ep _ => get_path_with_path ep.1 ep.2
  refine ⟨h0, ?_, ?_, ?_⟩
  · rw [hmap]
    exact nodup_snd_dedupFirst _ _
  · intro p
    rw [hmap, mem_snd_dedupFirst]
    simp only [List.not_mem_nil, not_false_iff, and_true, allMatches]
    constructor
    · intro hm
      obtain ⟨⟨e, q⟩, hq, hpe⟩ := List.mem_map.mp hm
      obtain ⟨e', he', hq'⟩ := List.mem_flatMap.mp hq
      obtain ⟨q', hq'm, heq⟩ := List.mem_map.mp hq'
      injection heq with h1 h2
      subst h1
      subst h2
      cases hpe
      exact ⟨e', he', hq'm⟩
    · rintro ⟨e, he, hpm⟩
      exact List.mem_map.mpr ⟨(e, p),
        List.mem_flatMap.mpr ⟨e, he, List.mem_map.mpr ⟨p, hpm, rfl⟩⟩, rfl⟩
  · intro x hx
    rw [h0] at hx
    obtain ⟨⟨e, p⟩, hep, hfx⟩ := List.mem_map.mp hx
    obtain ⟨-, i, hi, hE, hp, hall⟩ := dedupFirst_attribution g entries [] e p hep
    have hxp : x.get_path = p := by
      rw [← hfx]
      exact get_path_with_path e p
    refine ⟨i, hi, ?_, ?_, ?_⟩
    · rw [hxp, ← hE, hfx]
    · rw [hxp, ← hE]
      exact hp
    · intro j hj hlt
      rw [hxp]
      exact hall j hj hlt

/-- Witness for C1: two entries with overlapping expansions (`/a*`
matching `/ab` and `/ac`, then the concrete `/ab` again, tagged with a
layout); the output keeps each path once, attributed to the first
entry, and the later entry's rematch of `/ab` is dropped. -/
theorem claim_C1_witness :
    [Entry.JustPath (PathBuf.utf8 "/ab"), Entry.JustPath (PathBuf.utf8 "/ac")]
      = (dedupFirst
          (allMatches gOverlap
            [Entry.JustPath (PathBuf.utf8 "/a*"),
              Entry.PathWithlayout (PathBuf.utf8 "/ab") "L"]) []).map
          (fun ep => ep.1.with_path ep.2) :=
  (claim_C1 gOverlap
    [Entry.JustPath (PathBuf.utf8 "/a*"),
      Entry.PathWithlayout (PathBuf.utf8 "/ab") "L"]
    [Entry.JustPath (PathBuf.utf8 "/ab"), Entry.JustPath (PathBuf.utf8 "/ac")]
    rfl).1

/-! ## Glob expansion: error atomicity (C5) and idempotence (C7) -/

/-- If some entry's expansion fails fatally, the whole run errors. -/
theorem generateGo_fails (g : GlobFs) (es : List Entry) :
    ∀ seen res, (∃ e ∈ es, entryFails g e = true) →
      ∃ err, generateGo g es seen res = .error err := by
  induction es with
  | nil =>
    intro seen res h
    simp at h
  | cons e es ih =>
    intro seen res h
    rw [generateGo]
    rcases hts : e.get_path.toStr with _ | str
    · exact ⟨.encoding e.get_path, by simp [hts]⟩
    simp only [hts]
    rcases hg : g.glob str with msg | items
    · exact ⟨.pattern msg, by simp [hg]⟩
    simp only [hg]
    apply ih
    rcases h with ⟨e', he', hf⟩
    rcases List.mem_cons.mp he' with rfl | he'
    · simp [entryFails, hts, hg] at hf
    · exact ⟨e', he', hf⟩

/-- When every entry before index `i` expands cleanly and the entry at
`i` has a non-UTF-8 path, the run returns the encoding error naming
that entry's path. -/
theorem generateGo_first_encoding (g : GlobFs) (es : List Entry) :
    ∀ seen res i (hi : i < es.length),
      (∀ j (hj : j < es.length), j < i →
        entryFails g (es.get ⟨j, hj⟩) = false) →
      (es.get ⟨i, hi⟩).get_path.toStr = none →
      generateGo g es seen res
        = .error (.encoding (es.get ⟨i, hi⟩).get_path) := by
  induction es with
  | nil =>
    intro seen res i hi
    simp at hi
  | cons e es ih =>
    intro seen res i hi hpre henc
    cases i with
    | zero =>
      have henc' : e.get_path.toStr = none := henc
      rw [generateGo]
      simp only [henc']
      rfl
    | succ k =>
      have h0 : entryFails g e = false := hpre 0 (by simp) (Nat.succ_pos k)
      rw [generateGo]
      rcases hts : e.get_path.toStr with _ | str
      · simp [entryFails, hts] at h0
      simp only [hts]
      rcases hg : g.glob str with msg | items
      · simp [entryFails, hts, hg] at h0
      simp only [hg]
      have hk : k < es.length := by
        simp only [List.length_cons] at hi
        omega
      have henc' : (es.get ⟨k, hk⟩).get_path.toStr = none := henc
      exact ih _ _ k hk
        (fun j hj hlt =>
          hpre (j + 1) (by simp only [List.length_cons]; omega) (by omega))
        henc'

/-- Claim C5: expansion error atomicity — if any entry's path is not
UTF-8 representable or is not a syntactically valid glob pattern, the
whole expansion returns an error (so no partial result list is
produced), and when the first failing entry fails on encoding, the
error names that entry's path. -/
theorem claim_C5 (g : GlobFs) (entries : List Entry) :
    ((∃ e ∈ entries, entryFails g e = true) →
      ∃ err, generate_expanded_entries g entries = .error err)
    ∧ (∀ i, ∀ hi : i < entries.length,
        (∀ j, ∀ hj : j < entries.length, j < i →
          entryFails g (entries.get ⟨j, hj⟩) = false) →
        (entries.get ⟨i, hi⟩).get_path.toStr = none →
        generate_expanded_entries g entries
          = .error (.encoding (entries.get ⟨i, hi⟩).get_path)) :=
  ⟨fun h => generateGo_fails g entries [] [] h,
    fun i hi hpre henc =>
      generateGo_first_encoding g entries [] [] i hi hpre henc⟩

/-- Witness for C5: a single entry with a non-UTF-8 path aborts the run
with the encoding error naming that path. -/
theorem claim_C5_witness :
    generate_expanded_entries gEmpty [Entry.JustPath (PathBuf.nonUtf8 0)]
      = .error (.encoding (PathBuf.nonUtf8 0)) :=
  (claim_C5 gEmpty [Entry.JustPath (PathBuf.nonUtf8 0)]).2 0 (by decide)
    (fun j hj hlt => absurd hlt (Nat.not_lt_zero j)) rfl

/-- On concrete self-matching paths with pairwise distinct resolved
paths, expansion is the identity (up to the accumulator). -/
theorem generateGo_identity (g : GlobFs) (entries : List Entry) :
    ∀ seen res,
      (∀ e ∈ entries, ∃ s, e.get_path.toStr = some s ∧
        g.glob s = .ok [.ok e.get_path]) →
      (entries.map Entry.get_path).Nodup →
      (∀ e ∈ entries, e.get_path ∉ seen) →
      generateGo g entries seen res = .ok (res ++ entries) := by
  induction entries with
  | nil =>
    intro seen res _ _ _
    simp [generateGo]
  | cons e es ih =>
    intro seen res hconc hnd hseen
    obtain ⟨s, hts, hg⟩ := hconc e (List.mem_cons_self _ _)
    have hnotseen : e.get_path ∉ seen := hseen e (List.mem_cons_self _ _)
    have hwp : e.with_path e.get_path = e := by cases e <;> rfl
    rw [generateGo]
    simp only [hts, hg]
    rw [show survivors [.ok e.get_path] = [e.get_path] from rfl,
      expandMatches, if_neg hnotseen, expandMatches, hwp]
    simp only [List.map_cons, List.nodup_cons] at hnd
    rw [ih (e.get_path :: seen) (res ++ [e])
      (fun e' he' => hconc e' (List.mem_cons_of_mem _ he'))
      hnd.2
      (fun e' he' => by
        rw [List.mem_cons]
        rintro (hc | hc)
        · exact hnd.1 (hc ▸ List.mem_map.mpr ⟨e', he', rfl⟩)
        · exact hseen e' (List.mem_cons_of_mem _ he') hc)]
    simp

/-- Claim C7 (amended): expansion is the identity on a list of concrete,
self-matching paths that are pairwise distinct — it returns exactly
those entries, in order, with no error.  (As literally stated over
merely entry-wise duplicate-free lists the claim fails, see the
counterexample: two distinct entries may share one resolved path, and
the later one is dropped by the global dedup.) -/
theorem claim_C7 (g : GlobFs) (entries : List Entry)
    (hconc : ∀ e ∈ entries, ∃ s, e.get_path.toStr = some s ∧
      g.glob s = .ok [.ok e.get_path])
    (hnd : (entries.map Entry.get_path).Nodup) :
    generate_expanded_entries g entries = .ok entries := by
  have h := generateGo_identity g entries [] [] hconc hnd (by simp)
  simpa using h

/-- Counterexample to C7 as stated: the two entries are distinct (the
sequence is duplicate-free), both paths are concrete and exist (the
pattern `/a` resolves to exactly itself), yet the output is not the
input list — the second entry is dropped because its resolved path was
already emitted. -/
theorem claim_C7_counterexample :
    gSelf.glob "/a" = .ok [.ok (PathBuf.utf8 "/a")]
    ∧ (PathBuf.utf8 "/a").toStr = some "/a"
    ∧ Entry.JustPath (PathBuf.utf8 "/a")
        ≠ Entry.PathWithlayout (PathBuf.utf8 "/a") "l"
    ∧ generate_expanded_entries gSelf
        [Entry.JustPath (PathBuf.utf8 "/a"),
          Entry.PathWithlayout (PathBuf.utf8 "/a") "l"]
      = .ok [Entry.JustPath (PathBuf.utf8 "/a")]
    ∧ [Entry.JustPath (PathBuf.utf8 "/a")]
        ≠ [Entry.JustPath (PathBuf.utf8 "/a"),
            Entry.PathWithlayout (PathBuf.utf8 "/a") "l"] := by
  exact ⟨rfl, rfl, by decide, rfl, by decide⟩

/-- Witness for the amended C7 on a one-entry concrete list. -/
theorem claim_C7_witness :
    generate_expanded_entries gSelf [Entry.JustPath (PathBuf.utf8 "/a")]
      = .ok [Entry.JustPath (PathBuf.utf8 "/a")] :=
  claim_C7 gSelf [Entry.JustPath (PathBuf.utf8 "/a")]
    (fun e he => by
      rw [List.mem_singleton] at he
      subst he
      exact ⟨"/a", rfl, rfl⟩)
    (by decide)

/-! ## Parser laws: maximal munch for chunked repeats (C6, C8) -/

/-- `takeWhile`/`dropWhile` pass over a fully satisfying prefix. -/
theorem takeWhile_sat_append (p : Char → Bool) :
    ∀ l t : List Char, (∀ c ∈ l, p c = true) →
      (l ++ t).takeWhile p = l ++ t.takeWhile p
      ∧ (l ++ t).dropWhile p = t.dropWhile p := by
  intro l
  induction l with
  | nil => intro t _; simp
  | cons c l ih =>
    intro t h
    have hc : p c = true := h c (List.mem_cons_self _ _)
    have ht := ih t (fun d hd => h d (List.mem_cons_of_mem _ hd))
    simp [List.takeWhile_cons, List.dropWhile_cons, hc, ht.1, ht.2]

/-- `takeWhile`/`dropWhile` at a stopping head. -/
theorem takeWhile_stops (p : Char → Bool) (t : List Char) (h : headStops p t) :
    t.takeWhile p = [] ∧ t.dropWhile p = t := by
  cases t with
  | nil => simp
  | cons c t =>
    simp only [headStops] at h
    simp [List.takeWhile_cons, List.dropWhile_cons, h]

/-- A repeated chunk parser consumes exactly the maximal prefix of class
characters, returning nonempty chunks that flatten to that prefix. -/
theorem repeatGo_chunk (pred : Char → Bool) (p : Parse (List Char))
    (hp : ChunkP pred p) :
    ∀ fuel s, s.length < fuel →
      ∃ cs, repeatGo p fuel s = some (cs, s.dropWhile pred)
        ∧ cs.flatten = s.takeWhile pred ∧ ∀ t ∈ cs, t ≠ [] := by
  intro fuel
  induction fuel with
  | zero => intro s h; exact absurd h (Nat.not_lt_zero _)
  | succ n ih =>
    intro s hs
    cases s with
    | nil =>
      refine ⟨[], ?_, rfl, by simp⟩
      rw [repeatGo, hp.1 [] trivial]
      rfl
    | cons c s' =>
      by_cases hc : pred c = true
      · obtain ⟨t, r, hps, htne, htall, hsplit⟩ := hp.2 c s' hc
        have hlt : r.length < (c :: s').length := by
          rw [hsplit]
          cases t with
          | nil => exact absurd rfl htne
          | cons x xs =>
            simp only [List.cons_append, List.length_cons, List.length_append]
            omega
        have hr : r.length < n := by
          have h1 := hlt
          simp only [List.length_cons] at hs h1
          omega
        obtain ⟨cs, hgo, hflat, hne⟩ := ih r hr
        have hdrop : (c :: s').dropWhile pred = r.dropWhile pred := by
          rw [hsplit]
          exact (takeWhile_sat_append pred t r htall).2
        refine ⟨t :: cs, ?_, ?_, ?_⟩
        · rw [repeatGo]
          simp only [hps]
          rw [if_pos hlt]
          simp only [hgo]
          rw [hdrop]
        · rw [List.flatten_cons, hflat, hsplit]
          exact ((takeWhile_sat_append pred t r htall).1).symm
        · intro u hu
          rcases List.mem_cons.mp hu with rfl | hu
          · exact htne
          · exact hne u hu
      · have hstop : headStops pred (c :: s') := by
          simpa [headStops] using hc
        have hth := takeWhile_stops pred (c :: s') hstop
        refine ⟨[], ?_, ?_, by simp⟩
        · rw [repeatGo, hp.1 _ hstop, hth.2]
        · rw [hth.1]
          rfl

/-- Matching a literal against itself followed by anything. -/
theorem dropExact_self_append (l : List Char) :
    ∀ t, dropExact l (l ++ t) = some t := by
  induction l with
  | nil => intro t; rfl
  | cons c cs ih => intro t; simp [dropExact, ih]

/-- A literal never matches an input starting with a different
character. -/
theorem dropExact_ne_head (c d : Char) (cs ds : List Char) (h : d ≠ c) :
    dropExact (c :: cs) (d :: ds) = none := by
  simp [dropExact, h]

/-- The session-name alternation is a chunk parser for the name
charset. -/
theorem chunk_nameAlt :
    ChunkP isNameChar (altP alphanumeric1 (altP (plit ['-']) (plit ['_']))) := by
  constructor
  · intro s hstop
    cases s with
    | nil => rfl
    | cons c s' =>
      simp only [headStops] at hstop
      have h3 := hstop
      simp only [isNameChar, Bool.or_eq_false_iff, decide_eq_false_iff_not] at h3
      obtain ⟨⟨ha, hm⟩, hu⟩ := h3
      have htw : (c :: s').takeWhile isAlnumA = [] := by
        simp [List.takeWhile_cons, ha]
      simp only [altP, alphanumeric1, htw, plit,
        dropExact_ne_head _ _ _ _ hm, dropExact_ne_head _ _ _ _ hu]
      rfl
  · intro c s hc
    have h3 := hc
    simp only [isNameChar, Bool.or_eq_true, decide_eq_true_eq] at h3
    rcases h3 with (h | rfl) | rfl
    · refine ⟨(c :: s).takeWhile isAlnumA, (c :: s).dropWhile isAlnumA,
        ?_, ?_, ?_, (List.takeWhile_append_dropWhile isAlnumA (c :: s)).symm⟩
      · have htw : (c :: s).takeWhile isAlnumA = c :: s.takeWhile isAlnumA := by
          simp [List.takeWhile_cons, h]
        simp only [altP, alphanumeric1, htw]
      · simp [List.takeWhile_cons, h]
      · intro d hd
        have hda := List.mem_takeWhile_imp hd
        simp [isNameChar, hda]
    · have hna : isAlnumA '-' = false := by decide
      refine ⟨['-'], s, ?_, by simp, by intro d hd; simp at hd; subst hd; decide, rfl⟩
      have htw : ('-' :: s).takeWhile isAlnumA = [] := by
        simp [List.takeWhile_cons, hna]
      simp only [altP, alphanumeric1, htw, plit, dropExact, if_pos rfl,
        dropExact_self_append]
      rfl
    · have hna : isAlnumA '_' = false := by decide
      refine ⟨['_'], s, ?_, by simp, by intro d hd; simp at hd; subst hd; decide, rfl⟩
      have htw : ('_' :: s).takeWhile isAlnumA = [] := by
        simp [List.takeWhile_cons, hna]
      have hmm : ('_' : Char) ≠ '-' := by decide
      simp only [altP, alphanumeric1, htw, plit,
        dropExact_ne_head _ _ _ _ hmm, dropExact, if_pos rfl]
      rfl

/-- The dimensions alternation is a chunk parser for the payload
charset. -/
theorem chunk_dimAlt :
    ChunkP isDimChar (altP alphanumeric1 multispace1) := by
  constructor
  · intro s hstop
    cases s with
    | nil => rfl
    | cons c s' =>
      simp only [headStops] at hstop
      have h3 := hstop
      simp only [isDimChar, Bool.or_eq_false_iff] at h3
      have htw : (c :: s').takeWhile isAlnumA = [] := by
        simp [List.takeWhile_cons, h3.1]
      have htw2 : (c :: s').takeWhile isMultispace = [] := by
        simp [List.takeWhile_cons, h3.2]
      simp only [altP, alphanumeric1, multispace1, htw, htw2]
  · intro c s hc
    have h3 := hc
    simp only [isDimChar, Bool.or_eq_true] at h3
    rcases h3 with h | h
    · refine ⟨(c :: s).takeWhile isAlnumA, (c :: s).dropWhile isAlnumA,
        ?_, ?_, ?_, (List.takeWhile_append_dropWhile isAlnumA (c :: s)).symm⟩
      · have htw : (c :: s).takeWhile isAlnumA = c :: s.takeWhile isAlnumA := by
          simp [List.takeWhile_cons, h]
        simp only [altP, alphanumeric1, htw]
      · simp [List.takeWhile_cons, h]
      · intro d hd
        have hda := List.mem_takeWhile_imp hd
        simp [isDimChar, hda]
    · have hna : isAlnumA c = false := by
        have h4 := h
        simp only [isMultispace, Bool.or_eq_true, decide_eq_true_eq] at h4
        rcases h4 with ((rfl | rfl) | rfl) | rfl <;> decide
      refine ⟨(c :: s).takeWhile isMultispace, (c :: s).dropWhile isMultispace,
        ?_, ?_, ?_, (List.takeWhile_append_dropWhile isMultispace (c :: s)).symm⟩
      · have htw : (c :: s).takeWhile isAlnumA = [] := by
          simp [List.takeWhile_cons, hna]
        have htw2 : (c :: s).takeWhile isMultispace = c :: s.takeWhile isMultispace := by
          simp [List.takeWhile_cons, h]
        simp only [altP, alphanumeric1, multispace1, htw, htw2]
      · simp [List.takeWhile_cons, h]
      · intro d hd
        have hda := List.mem_takeWhile_imp hd
        simp [isDimChar, hda]

/-- `session_name` consumes the maximal nonempty name-charset prefix and
returns it. -/
theorem session_name_some (s : List Char) (hne : s.takeWhile isNameChar ≠ []) :
    session_name s
      = some ((s.takeWhile isNameChar).asString, s.dropWhile isNameChar) := by
  obtain ⟨cs, hgo, hflat, hnon⟩ :=
    repeatGo_chunk isNameChar _ chunk_nameAlt (s.length + 1) s (Nat.lt_succ_self _)
  cases cs with
  | nil => exact absurd hflat.symm hne
  | cons t ts =>
    simp only [session_name, repeat1, hgo]
    rw [← hflat]

/-- `session_name` fails when the input does not start with a name
character. -/
theorem session_name_none (s : List Char) (he : s.takeWhile isNameChar = []) :
    session_name s = none := by
  obtain ⟨cs, hgo, hflat, hnon⟩ :=
    repeatGo_chunk isNameChar _ chunk_nameAlt (s.length + 1) s (Nat.lt_succ_self _)
  have hcs : cs = [] := by
    cases cs with
    | nil => rfl
    | cons t ts =>
      exfalso
      rw [he] at hflat
      simp only [List.flatten_cons, List.append_eq_nil] at hflat
      exact hnon t (List.mem_cons_self _ _) hflat.1
  subst hcs
  simp only [session_name, repeat1, hgo]

/-- The bracketed payload parser accepts any payload over its charset,
discards it, and stops at the closing bracket. -/
theorem dimsP_run (d rest : List Char) (hd : ∀ c ∈ d, isDimChar c = true) :
    dimsP ('[' :: (d ++ ']' :: rest)) = some (d, rest) := by
  have hstop : headStops isDimChar (']' :: rest) := by
    show isDimChar ']' = false
    decide
  have htk := takeWhile_sat_append isDimChar d (']' :: rest) hd
  have hst := takeWhile_stops isDimChar (']' :: rest) hstop
  obtain ⟨cs, hgo, hflat, hnon⟩ :=
    repeatGo_chunk isDimChar _ chunk_dimAlt ((d ++ ']' :: rest).length + 1) _
      (Nat.lt_succ_self _)
  have hdw : (d ++ ']' :: rest).dropWhile isDimChar = ']' :: rest := by
    rw [htk.2, hst.2]
  have htw : (d ++ ']' :: rest).takeWhile isDimChar = d := by
    rw [htk.1, hst.1, List.append_nil]
  rw [hdw] at hgo
  have hpo : pch '[' ('[' :: (d ++ ']' :: rest)) = some ('[', d ++ ']' :: rest) := by
    simp [pch]
  have hpc : pch ']' (']' :: rest) = some (']', rest) := by
    simp [pch]
  simp only [dimsP, delimitedP, hpo, repeat0, hgo, hpc]
  rw [hflat, htw]

/-- A rendered well-formed listing line, followed by a line ending or the
end of input, parses as one session entry with the expected record. -/
theorem session_entry_render (d : RDesc) (hwf : d.wf) (rest : List Char)
    (hrest : rest = [] ∨ ∃ t, rest = '\n' :: t) :
    session_entry (d.render ++ rest) = some (d.record, rest) := by
  obtain ⟨hnne, hnall, hdall⟩ := hwf
  have hform : d.render ++ rest
      = d.name ++ ' ' :: '[' ::
          (d.dims ++ ']' ::
            (List.replicate d.pad ' ' ++ (statusText d.status ++ rest))) := by
    simp [RDesc.render, List.append_assoc]
  have hstop1 : headStops isNameChar
      (' ' :: '[' ::
        (d.dims ++ ']' ::
          (List.replicate d.pad ' ' ++ (statusText d.status ++ rest)))) := by
    show isNameChar ' ' = false
    decide
  have htw1 := takeWhile_sat_append isNameChar d.name
    (' ' :: '[' ::
      (d.dims ++ ']' ::
        (List.replicate d.pad ' ' ++ (statusText d.status ++ rest)))) hnall
  have hst1 := takeWhile_stops isNameChar _ hstop1
  have hname : session_name (d.name ++ ' ' :: '[' ::
      (d.dims ++ ']' ::
        (List.replicate d.pad ' ' ++ (statusText d.status ++ rest))))
      = some (d.name.asString,
          ' ' :: '[' ::
            (d.dims ++ ']' ::
              (List.replicate d.pad ' ' ++ (statusText d.status ++ rest)))) := by
    rw [session_name_some _ (by rw [htw1.1, hst1.1, List.append_nil]; exact hnne),
      htw1.1, hst1.1, List.append_nil, htw1.2, hst1.2]
  have hspc : pch ' ' (' ' :: '[' ::
      (d.dims ++ ']' ::
        (List.replicate d.pad ' ' ++ (statusText d.status ++ rest))))
      = some (' ', '[' ::
          (d.dims ++ ']' ::
            (List.replicate d.pad ' ' ++ (statusText d.status ++ rest)))) := by
    simp [pch]
  have hdims := dimsP_run d.dims
    (List.replicate d.pad ' ' ++ (statusText d.status ++ rest)) hdall
  have hstop4 : headStops isSpaceTab (statusText d.status ++ rest) := by
    rcases d.status with _ | b
    · rcases hrest with rfl | ⟨t, rfl⟩
      · exact trivial
      · show isSpaceTab '\n' = false
        decide
    · cases b
      · show isSpaceTab '(' = false
        decide
      · show isSpaceTab '(' = false
        decide
  have hrall : ∀ c ∈ List.replicate d.pad ' ', isSpaceTab c = true := by
    intro c hcm
    rw [List.eq_of_mem_replicate hcm]
    decide
  have hsar := takeWhile_sat_append isSpaceTab (List.replicate d.pad ' ')
    (statusText d.status ++ rest) hrall
  have hss := takeWhile_stops isSpaceTab (statusText d.status ++ rest) hstop4
  have hsp0 : space0 (List.replicate d.pad ' ' ++ (statusText d.status ++ rest))
      = some (List.replicate d.pad ' ', statusText d.status ++ rest) := by
    simp only [space0]
    rw [hsar.1, hss.1, List.append_nil, hsar.2, hss.2]
  have hopt : optP (delimitedP (pch '(') statusP (pch ')'))
      (statusText d.status ++ rest)
      = some (d.status.map fun b => if b then Status.Exited else Status.Else,
          rest) := by
    rcases d.status with _ | b
    · rcases hrest with rfl | ⟨t, rfl⟩
      · rfl
      · have hne : ¬('\n' : Char) = '(' := by decide
        simp [optP, delimitedP, pch, hne, statusText]
    · cases b
      · have hform2 : statusText (some false) ++ rest
            = '(' :: (currentLit ++ (')' :: rest)) := by
          simp [statusText, List.append_assoc]
        have hex : dropExact exitedLit (currentLit ++ (')' :: rest)) = none := by
          have h1 : currentLit ++ (')' :: rest)
              = 'c' :: ("urrent".toList ++ ')' :: rest) := rfl
          have h2 : exitedLit
              = 'E' :: "XITED - attach to resurrect".toList := rfl
          rw [h1, h2]
          exact dropExact_ne_head _ _ _ _ (by decide)
        have hpo : pch '(' ('(' :: (currentLit ++ (')' :: rest)))
            = some ('(', currentLit ++ (')' :: rest)) := by
          simp [pch]
        have hpc : pch ')' (')' :: rest) = some (')', rest) := by
          simp [pch]
        rw [hform2]
        simp only [optP, delimitedP, hpo, statusP, altP, plit, hex,
          dropExact_self_append, hpc]
        rfl
      · have hform2 : statusText (some true) ++ rest
            = '(' :: (exitedLit ++ (')' :: rest)) := by
          simp [statusText, List.append_assoc]
        have hpo : pch '(' ('(' :: (exitedLit ++ (')' :: rest)))
            = some ('(', exitedLit ++ (')' :: rest)) := by
          simp [pch]
        have hpc : pch ')' (')' :: rest) = some (')', rest) := by
          simp [pch]
        rw [hform2]
        simp only [optP, delimitedP, hpo, statusP, altP, plit,
          dropExact_self_append, hpc]
        rfl
  rw [hform]
  simp only [session_entry, hname, hspc, hdims, hsp0, hopt, RDesc.record]
  rcases d.status with _ | b
  · rfl
  · cases b <;> rfl

/-- The separated-list loop consumes every remaining rendered line and
stops before the final line ending when the remainder fails to parse
as a session entry. -/
theorem separatedGo_render (rest : List Char)
    (hfail : session_entry rest = none) :
    ∀ (ds : List RDesc), (∀ x ∈ ds, x.wf) →
      ∀ fuel, ('\n' :: renderAll ds rest).length ≤ fuel →
        separatedGo session_entry line_ending fuel ('\n' :: renderAll ds rest)
          = some (ds.map RDesc.record, '\n' :: rest) := by
  intro ds
  induction ds with
  | nil =>
    intro _ fuel hf
    cases fuel with
    | zero => simp at hf
    | succ n =>
      rw [separatedGo]
      simp only [renderAll, line_ending, hfail]
      rfl
  | cons d ds ih =>
    intro hwf fuel hf
    cases fuel with
    | zero => simp at hf
    | succ n =>
      have hentry := session_entry_render d (hwf d (List.mem_cons_self _ _))
        ('\n' :: renderAll ds rest) (Or.inr ⟨renderAll ds rest, rfl⟩)
      have hfn : ('\n' :: renderAll ds rest).length ≤ n := by
        simp only [renderAll, List.length_cons, List.length_append] at hf ⊢
        omega
      rw [separatedGo]
      have hsep : ∀ X : List Char, line_ending ('\n' :: X) = some (['\n'], X) :=
        fun X => rfl
      have hrall : renderAll (d :: ds) rest
          = d.render ++ '\n' :: renderAll ds rest := rfl
      simp only [hrall, hsep, hentry]
      rw [if_pos (by
          simp only [List.length_cons, List.length_append]
          omega),
        ih (fun x hx => hwf x (List.mem_cons_of_mem _ hx)) n hfn]
      rfl

/-- A rendered nonempty well-formed listing followed by an
entry-rejecting remainder parses to exactly the rendered records, with
the remainder left unconsumed. -/
theorem parse_render (d : RDesc) (ds : List RDesc)
    (hwf : ∀ x ∈ d :: ds, x.wf) (rest : List Char)
    (hfail : session_entry rest = none) :
    parse_zellij_ls (renderAll (d :: ds) rest)
      = some ((d :: ds).map RDesc.record, rest) := by
  have hentry := session_entry_render d (hwf d (List.mem_cons_self _ _))
    ('\n' :: renderAll ds rest) (Or.inr ⟨renderAll ds rest, rfl⟩)
  have hrall : renderAll (d :: ds) rest
      = d.render ++ '\n' :: renderAll ds rest := rfl
  have hgo := separatedGo_render rest hfail ds
    (fun x hx => hwf x (List.mem_cons_of_mem _ hx))
    (('\n' :: renderAll ds rest).length + 1) (Nat.le_succ _)
  have hol : optP line_ending ('\n' :: rest) = some (some ['\n'], rest) := rfl
  simp only [parse_zellij_ls, separated0, hrall, hentry, hgo, hol]
  rfl

/-- Claim C6: the session-listing parser never recovers past a malformed
tail — for every nonempty well-formed rendered listing followed by a
nonempty remainder that does not parse as a session entry, the whole
parse fails (returns no prefix of records). -/
theorem claim_C6 (d : RDesc) (ds : List RDesc) (hwf : ∀ x ∈ d :: ds, x.wf)
    (rest : List Char) (hrest : rest ≠ [])
    (hfail : session_entry rest = none) :
    parse_zellij_ls_complete (renderAll (d :: ds) rest) = none := by
  rw [parse_zellij_ls_complete, parse_render d ds hwf rest hfail]
  cases rest with
  | nil => exact absurd rfl hrest
  | cons c t => rfl

/-- Witness for C6: a well-formed first line followed by the malformed
line `bad!name [1x1]` makes the whole parse fail. -/
theorem claim_C6_witness :
    parse_zellij_ls_complete
        (renderAll [⟨"a".toList, "1x1".toList, 0, none⟩]
          ("bad!name [1x1]\n".toList)) = none :=
  claim_C6 ⟨"a".toList, "1x1".toList, 0, none⟩ []
    (fun x hx => by
      rw [List.mem_singleton] at hx
      subst hx
      exact ⟨by decide, by decide, by decide⟩)
    ("bad!name [1x1]\n".toList) (by decide) rfl

/-- Claim C8 (amended): the bracketed payload is opaque over its
accepted charset — every line `<name> ' ' '[' <payload> ']' <spaces>
<status?>` whose payload consists of alphanumeric or whitespace
characters parses, the payload being discarded (the record depends
only on the name and status).  As literally stated ("any payload, only
bracket balance matters") the claim fails: the counterexample shows a
balanced-bracket payload with a character outside that charset being
rejected. -/
theorem claim_C8 (d : RDesc) (hwf : d.wf) :
    parse_zellij_ls_complete (renderAll [d] []) = some [d.record] := by
  rw [parse_zellij_ls_complete,
    parse_render d [] (by simpa using hwf) [] rfl]
  rfl

/-- Counterexample to C8 as stated: `-` inside the brackets (balanced)
is rejected by the parser. -/
theorem claim_C8_counterexample :
    parse_zellij_ls_complete ("work [a-b]\n".toList) = none := rfl

/-- Witness for the amended C8: a payload mixing digits, letters and
whitespace is accepted and discarded. -/
theorem claim_C8_witness :
    parse_zellij_ls_complete
        (renderAll [⟨"work".toList, "80x24 7".toList, 1, some true⟩] [])
      = some [⟨"work", true⟩] :=
  claim_C8 ⟨"work".toList, "80x24 7".toList, 1, some true⟩
    ⟨by decide, by decide, by decide⟩

/-! ## Display injectivity (C9) -/

/-- Numeric escapes below 128 decode back, and contain no closing
brace. -/
theorem hex_roundtrip : ∀ n, n < 128 →
    hexVal (hexDigits n) = some n ∧ ∀ c ∈ hexDigits n, ¬c = '}' := by
  decide

/-- One decoding step over a two-character escape. -/
theorem unescGo_cons_esc (m : Nat) (d ch : Char) (s : List Char)
    (hdu : ¬d = 'u') (hd : unescDigit d = some ch) :
    unescGo (m + 1) ('\\' :: d :: s)
      = (unescGo m s).map fun pr => (ch :: pr.1, pr.2) := by
  have h1 : ¬('\\' : Char) = '"' := by decide
  simp [unescGo, h1, hdu, hd]

/-- One decoding step over a plain character. -/
theorem unescGo_cons_plain (m : Nat) (c : Char) (s : List Char)
    (h1 : ¬c = '"') (h2 : ¬c = '\\') :
    unescGo (m + 1) (c :: s)
      = (unescGo m s).map fun pr => (c :: pr.1, pr.2) := by
  simp [unescGo, h1, h2]

/-- The closing quote stops the decoder. -/
theorem unescGo_cons_quote (m : Nat) (s : List Char) :
    unescGo (m + 1) ('"' :: s) = some ([], s) := by
  simp [unescGo]

/-- One decoding step over a `\u{..}` escape. -/
theorem unescGo_cons_unicode (m n : Nat) (s : List Char) (hn : n < 128) :
    unescGo (m + 1) ('\\' :: 'u' :: '{' :: (hexDigits n ++ '}' :: s))
      = (unescGo m s).map fun pr => (Char.ofNat n :: pr.1, pr.2) := by
  have h1 : ¬('\\' : Char) = '"' := by decide
  have hhex := hex_roundtrip n hn
  have hall : ∀ c ∈ hexDigits n, (fun x => !(x = '}')) c = true := by
    intro c hcm
    simpa using hhex.2 c hcm
  have hstop : headStops (fun x => !(x = '}')) ('}' :: s) := by
    show (!(('}' : Char) = '}' : Bool)) = false
    decide
  have htk := takeWhile_sat_append (fun x => !(x = '}')) (hexDigits n)
    ('}' :: s) hall
  have hst := takeWhile_stops (fun x => !(x = '}')) ('}' :: s) hstop
  have htw : (hexDigits n ++ '}' :: s).takeWhile (fun x => !(x = '}'))
      = hexDigits n := by
    rw [htk.1, hst.1, List.append_nil]
  have hdw : (hexDigits n ++ '}' :: s).dropWhile (fun x => !(x = '}'))
      = '}' :: s := by
    rw [htk.2, hst.2]
  simp [unescGo, h1, htw, hdw, hhex.1]

/-- Every escape produces at least one character. -/
theorem escChar_length_pos (c : Char) : 1 ≤ (escChar c).length := by
  rw [escChar]
  split_ifs <;> simp

/-- Decoding inverts escaping: the decoder consumes exactly the escaped
text and its closing quote, returning the original text. -/
theorem unescGo_escSeq (s : List Char) :
    ∀ (t : List Char) (fuel : Nat), (escSeq s).length < fuel →
      unescGo fuel (escSeq s ++ '"' :: t) = some (s, t) := by
  induction s with
  | nil =>
    intro t fuel h
    cases fuel with
    | zero => simp at h
    | succ m => exact unescGo_cons_quote m t
  | cons c s' ih =>
    intro t fuel h
    cases fuel with
    | zero => simp at h
    | succ m =>
      have hm : (escSeq s').length < m := by
        have hle := escChar_length_pos c
        have hlen : (escSeq (c :: s')).length
            = (escChar c).length + (escSeq s').length := by
          simp [escSeq]
        rw [hlen] at h
        omega
      have hstep : escSeq (c :: s') ++ '"' :: t
          = escChar c ++ (escSeq s' ++ '"' :: t) := by
        simp [escSeq]
      by_cases h1 : c = '"'
      · subst h1
        rw [hstep, show escChar '"' = ['\\', '"'] from rfl, List.cons_append,
          List.cons_append, List.nil_append,
          unescGo_cons_esc m '"' '"' _ (by decide) (by decide), ih t m hm]
        rfl
      by_cases h2 : c = '\\'
      · subst h2
        rw [hstep, show escChar '\\' = ['\\', '\\'] from rfl, List.cons_append,
          List.cons_append, List.nil_append,
          unescGo_cons_esc m '\\' '\\' _ (by decide) (by decide), ih t m hm]
        rfl
      by_cases h3 : c = '\n'
      · subst h3
        rw [hstep, show escChar '\n' = ['\\', 'n'] from rfl, List.cons_append,
          List.cons_append, List.nil_append,
          unescGo_cons_esc m 'n' '\n' _ (by decide) (by decide), ih t m hm]
        rfl
      by_cases h4 : c = '\t'
      · subst h4
        rw [hstep, show escChar '\t' = ['\\', 't'] from rfl, List.cons_append,
          List.cons_append, List.nil_append,
          unescGo_cons_esc m 't' '\t' _ (by decide) (by decide), ih t m hm]
        rfl
      by_cases h5 : c = '\r'
      · subst h5
        rw [hstep, show escChar '\r' = ['\\', 'r'] from rfl, List.cons_append,
          List.cons_append, List.nil_append,
          unescGo_cons_esc m 'r' '\r' _ (by decide) (by decide), ih t m hm]
        rfl
      by_cases h6 : c = Char.ofNat 0
      · subst h6
        rw [hstep, show escChar (Char.ofNat 0) = ['\\', '0'] from rfl,
          List.cons_append, List.cons_append, List.nil_append,
          unescGo_cons_esc m '0' (Char.ofNat 0) _ (by decide) (by decide),
          ih t m hm]
        rfl
      by_cases h7 : (c.toNat < 32 || c.toNat = 127) = true
      · have he : escChar c
            = '\\' :: 'u' :: '{' :: hexDigits c.toNat ++ ['}'] := by
          simp [escChar, h1, h2, h3, h4, h5, h6, h7]
        have hn : c.toNat < 128 := by
          have h8 := h7
          simp only [Bool.or_eq_true, decide_eq_true_eq] at h8
          omega
        have hform : escSeq (c :: s') ++ '"' :: t
            = '\\' :: 'u' :: '{' ::
                (hexDigits c.toNat ++ '}' :: (escSeq s' ++ '"' :: t)) := by
          rw [hstep, he]
          simp [List.append_assoc]
        rw [hform, unescGo_cons_unicode m c.toNat _ hn, ih t m hm,
          Char.ofNat_toNat]
        rfl
      · have he : escChar c = [c] := by
          simp [escChar, h1, h2, h3, h4, h5, h6, h7]
        rw [hstep, he, List.cons_append, List.nil_append,
          unescGo_cons_plain m c _ h1 h2, ih t m hm]
        rfl

/-- The display of a bare entry parses back to its path text with no
layout. -/
theorem parseDisplay_JustPath (s : String) :
    parseDisplay (squo :: '"' :: escSeq s.toList ++ ['"', squo])
      = some (s.toList, none) := by
  have hu := unescGo_escSeq s.toList [squo]
    ((escSeq s.toList ++ ['"', squo]).length + 1)
    (by simp only [List.length_append, List.length_cons]; omega)
  simp only [List.cons_append, parseDisplay, hu]
  rfl

/-- The display of an entry with a layout parses back to its path text
and its layout. -/
theorem parseDisplay_withLayout (s l : String) :
    parseDisplay (squo :: '"' :: escSeq s.toList ++ '"' :: squo :: midLit
        ++ squo :: l.toList ++ [squo])
      = some (s.toList, some l.toList) := by
  have hu := unescGo_escSeq s.toList
    (squo :: (midLit ++ squo :: (l.toList ++ [squo])))
    ((escSeq s.toList
      ++ '"' :: squo :: (midLit ++ squo :: (l.toList ++ [squo]))).length + 1)
    (by simp only [List.length_append, List.length_cons]; omega)
  have hmid : dropExact midLit (midLit ++ squo :: (l.toList ++ [squo]))
      = some (squo :: (l.toList ++ [squo])) := dropExact_self_append _ _
  have hne3 : ¬(midLit ++ squo :: (l.toList ++ [squo]) = []) := by
    simp [midLit]
  simp only [List.cons_append, List.append_assoc, parseDisplay, hu, hne3, hmid]
  simp [List.getLast?_concat]

/-- A defined display parses back to the entry's path text and optional
layout (so the rendering is invertible). -/
theorem parseDisplay_display (e : Entry) (d : List Char)
    (h : display e = some d) :
    ∃ s : String, e.get_path = .utf8 s
      ∧ parseDisplay d = some (s.toList, e.layoutOf.map String.toList) := by
  cases e with
  | JustPath p =>
    cases p with
    | utf8 s =>
      have hd : display (Entry.JustPath (PathBuf.utf8 s))
          = some (squo :: '"' :: escSeq s.toList ++ ['"', squo]) := rfl
      rw [hd, Option.some.injEq] at h
      subst h
      exact ⟨s, rfl, parseDisplay_JustPath s⟩
    | nonUtf8 id => simp [display, PathBuf.toStr] at h
  | PathWithlayout p l =>
    cases p with
    | utf8 s =>
      have hd : display (Entry.PathWithlayout (PathBuf.utf8 s) l)
          = some (squo :: '"' :: escSeq s.toList ++ '"' :: squo :: midLit
              ++ squo :: l.toList ++ [squo]) := rfl
      rw [hd, Option.some.injEq] at h
      subst h
      exact ⟨s, rfl, parseDisplay_withLayout s l⟩
    | nonUtf8 id => simp [display, PathBuf.toStr] at h

/-- Claim C9: the display string is injective over (path, optional
layout) pairs — two entries (with renderable, i.e. UTF-8, paths) whose
pairs differ render to different strings. -/
theorem claim_C9 (e1 e2 : Entry) (d1 d2 : List Char)
    (h1 : display e1 = some d1) (h2 : display e2 = some d2)
    (hne : (e1.get_path, e1.layoutOf) ≠ (e2.get_path, e2.layoutOf)) :
    d1 ≠ d2 := by
  intro heq
  obtain ⟨s1, hp1, hq1⟩ := parseDisplay_display e1 d1 h1
  obtain ⟨s2, hp2, hq2⟩ := parseDisplay_display e2 d2 h2
  rw [heq, hq2, Option.some.injEq, Prod.mk.injEq] at hq1
  obtain ⟨hs, hl⟩ := hq1
  have hseq : s1 = s2 := String.toList_inj.mp hs.symm
  have hleq : e1.layoutOf = e2.layoutOf := by
    rcases hc1 : e1.layoutOf with _ | a
    · rcases hc2 : e2.layoutOf with _ | b
      · rfl
      · rw [hc1, hc2] at hl
        exact absurd hl (by simp)
    · rcases hc2 : e2.layoutOf with _ | b
      · rw [hc1, hc2] at hl
        exact absurd hl (by simp)
      · rw [hc1, hc2] at hl
        have hba : b.toList = a.toList := by
          simpa using hl
        exact congrArg some (String.toList_inj.mp hba).symm
  exact hne (by rw [hp1, hp2, hseq, hleq])

/-- Witness for C9: a bare entry and a layout-tagged entry over the same
path render to different strings. -/
theorem claim_C9_witness :
    (display (Entry.JustPath (PathBuf.utf8 "a"))).getD []
      ≠ (display (Entry.PathWithlayout (PathBuf.utf8 "a") "l")).getD [] :=
  claim_C9 (Entry.JustPath (PathBuf.utf8 "a"))
    (Entry.PathWithlayout (PathBuf.utf8 "a") "l") _ _ rfl rfl (by decide)
